import Mathlib

/-
Verification of the ordering/uniqueness core and the category tree of the
product-catalog backend.

Part 1: the per-parent ordering mechanism.

The source expresses ordering through a custom model field
(product/fields.py, class OrderField) together with a duplicate scan in the
models' clean() methods (product/models.py, ProductLine.clean and
ProductImage.clean).  Both ProductLine (scoped by product) and ProductImage
(scoped by product_line) instantiate the identical mechanism, so a single
row type with a generic scope reference embeds both.

A row of an ordering-bearing entity.  Fields of the source models that the
ordering mechanism never reads (sku, price, stock_qty, user, alt_text,
image, is_active) are omitted; pk is the primary key, scope is the id of
the parent reference (the product for ProductLine rows, the product line
for ProductImage rows).  The stored ordering is an integer: the column is a
PositiveIntegerField, whose model-level validation bounds are 0 and
2147483647.
-/

structure Row where
  pk : Nat
  scope : Nat
  ordering : Int
deriving DecidableEq, Repr

/-- Maximum ordering over a list of rows: `qs.latest(self.attname)` reads the
row with the greatest ordering; `none` corresponds to the
ObjectDoesNotExist branch taken on an empty table. -/
def globalMaxOrdering : List Row → Option Int
  | [] => none
  | r :: rs => some ((globalMaxOrdering rs).elim r.ordering (fun m => max r.ordering m))

/-- OrderField.pre_save (product/fields.py lines 43-62).  When the ordering
is unset it computes 1 + the maximum ordering.  NOTE, faithful to the
source: the code builds `query = {self.to_field: ...}` and calls
`qs.filter(**query)` but discards the returned queryset, so `qs` is still
`self.model.objects.all()` and the subsequent `qs.latest(...)` takes the
maximum over the WHOLE table, not over the rows sharing the scope value. -/
def pre_save (rows : List Row) (ord? : Option Int) : Int :=
  match ord? with
  | some v => v
  | none => (globalMaxOrdering rows).elim 1 (fun m => m + 1)

/-- Model-level field validation run by full_clean for a PositiveIntegerField:
the value must lie in [0, 2147483647].  An unset value passes (the column is
declared blank=True, null=True). -/
def fieldRangeOk : Option Int → Bool
  | none => true
  | some v => decide (0 ≤ v) && decide (v ≤ 2147483647)

/-- ProductLine.clean / ProductImage.clean (product/models.py): scan the
sibling rows sharing the scope value, excluding the row's own pk, and fail
when the candidate ordering equals a sibling's ordering.  When the candidate
ordering is unset, Python's `None == obj.ordering` is False for every
sibling, which is matched here by `none != some _` being true. -/
def cleanOrdering (rows : List Row) (pk scope : Nat) (ord? : Option Int) : Bool :=
  (rows.filter (fun r => r.scope == scope && r.pk != pk)).all
    (fun r => ord? != some r.ordering)

/-- Error kinds surfaced by a rejected save.  The source raises
django.core.exceptions.ValidationError in both cases; the spec calls the
duplicate case DuplicateOrderingError. -/
inductive SaveError
  | duplicateOrdering
  | fieldRange
deriving DecidableEq, Repr

/-- Persisting the validated row: replace the row with the same pk when it
exists (update), append otherwise (create). -/
def upsertRow (rows : List Row) (row : Row) : List Row :=
  if rows.any (fun r => r.pk == row.pk) then
    rows.map (fun r => if r.pk == row.pk then row else r)
  else
    rows ++ [row]

/-- ProductLine.save / ProductImage.save: run full_clean (field validators,
then clean) and only then the actual save, during which OrderField.pre_save
fills the ordering.  On a validation error nothing is persisted. -/
def saveRow (rows : List Row) (pk scope : Nat) (ord? : Option Int) :
    Except SaveError (List Row) :=
  if fieldRangeOk ord? then
    if cleanOrdering rows pk scope ord? then
      Except.ok (upsertRow rows ⟨pk, scope, pre_save rows ord?⟩)
    else
      Except.error SaveError.duplicateOrdering
  else
    Except.error SaveError.fieldRange

/-- One create/update request against the table: pk, scope, optional
explicit ordering.  A rejected save leaves the table unchanged. -/
def applySaveRow (rows : List Row) (req : Nat × Nat × Option Int) : List Row :=
  match saveRow rows req.1 req.2.1 req.2.2 with
  | Except.ok rows' => rows'
  | Except.error _ => rows

/-- Modelled from the spec: the next-ordering rule of OrderAssigner, namely
`1 + max(ordering of existing sibling rows sharing the same scope value)`,
or 1 if no siblings exist.  This is the comparison point for the behaviour
the source actually implements in OrderField.pre_save. -/
def specNextOrdering (rows : List Row) (scope : Nat) : Int :=
  (globalMaxOrdering (rows.filter (fun r => r.scope == scope))).elim 1 (fun m => m + 1)

/-
Lemmas about the ordering mechanism.
-/

theorem globalMaxOrdering_le {rows : List Row} {r : Row} (h : r ∈ rows) :
    ∃ m, globalMaxOrdering rows = some m ∧ r.ordering ≤ m := by
  induction rows with
  | nil => cases h
  | cons a rs ih =>
    cases h with
    | head =>
      refine ⟨_, rfl, ?_⟩
      cases hgm : globalMaxOrdering rs with
      | none => simp [hgm]
      | some m' => simp [hgm]
    | tail _ hmem =>
      obtain ⟨m', hm', hle⟩ := ih hmem
      refine ⟨_, rfl, ?_⟩
      rw [hm']
      simpa using Or.inr hle

theorem globalMaxOrdering_attained {rows : List Row} {m : Int}
    (h : globalMaxOrdering rows = some m) : ∃ r ∈ rows, r.ordering = m := by
  induction rows generalizing m with
  | nil => simp [globalMaxOrdering] at h
  | cons a rs ih =>
    cases hgm : globalMaxOrdering rs with
    | none =>
      rw [globalMaxOrdering, hgm] at h
      simp only [Option.elim_none, Option.some.injEq] at h
      exact ⟨a, List.mem_cons_self a rs, h⟩
    | some m' =>
      rw [globalMaxOrdering, hgm] at h
      simp only [Option.elim_some] at h
      injection h with h2
      rcases max_choice a.ordering m' with hc | hc
      · exact ⟨a, List.mem_cons_self a rs, by rw [← h2, hc]⟩
      · obtain ⟨r, hr, hro⟩ := ih hgm
        exact ⟨r, List.mem_cons_of_mem a hr, by rw [hro, ← h2, hc]⟩

theorem pre_save_lt_of_mem {rows : List Row} {r : Row} (h : r ∈ rows) :
    r.ordering < pre_save rows none := by
  obtain ⟨m, hm, hle⟩ := globalMaxOrdering_le h
  rw [pre_save, hm]
  simp only [Option.elim_some]
  omega

theorem cleanOrdering_some {rows : List Row} {pk scope : Nat} {v : Int}
    (h : cleanOrdering rows pk scope (some v) = true)
    {r : Row} (hr : r ∈ rows) (hs : r.scope = scope) (hp : r.pk ≠ pk) :
    v ≠ r.ordering := by
  have hmem : r ∈ rows.filter (fun r => r.scope == scope && r.pk != pk) := by
    refine List.mem_filter.mpr ⟨hr, ?_⟩
    simp [hs, hp]
  have := List.all_eq_true.mp h r hmem
  simpa using this

theorem cleanOrdering_none (rows : List Row) (pk scope : Nat) :
    cleanOrdering rows pk scope none = true := by
  simp [cleanOrdering]

theorem mem_upsertRow {rows : List Row} {new x : Row} (h : x ∈ upsertRow rows new) :
    x = new ∨ (x ∈ rows ∧ x.pk ≠ new.pk) := by
  rw [upsertRow] at h
  split at h
  · obtain ⟨r, hr, hfr⟩ := List.mem_map.mp h
    by_cases hpk : r.pk = new.pk
    · left
      rw [← hfr]
      simp [hpk]
    · right
      have hfx : x = r := by
        rw [← hfr]
        simp [hpk]
      rw [hfx]
      exact ⟨hr, hpk⟩
  · next hany =>
    rcases List.mem_append.mp h with hmem | hmem
    · right
      refine ⟨hmem, ?_⟩
      intro hpk
      exact hany (List.any_eq_true.mpr ⟨x, hmem, by simp [hpk]⟩)
    · left
      simpa using hmem

theorem upsertRow_pks_nodup {rows : List Row} {new : Row}
    (h : (rows.map Row.pk).Nodup) : ((upsertRow rows new).map Row.pk).Nodup := by
  rw [upsertRow]
  split
  · have : (rows.map (fun r => if r.pk == new.pk then new else r)).map Row.pk
        = rows.map Row.pk := by
      rw [List.map_map]
      apply List.map_congr_left
      intro r _
      by_cases hpk : r.pk = new.pk
      · simp [hpk]
      · simp [hpk]
    rw [this]
    exact h
  · next hany =>
    rw [List.map_append]
    rw [List.nodup_append]
    refine ⟨h, List.nodup_singleton _, ?_⟩
    intro a ha hb
    have hax : a = new.pk := by simpa using hb
    obtain ⟨r, hr, hrp⟩ := List.mem_map.mp ha
    exact hany (List.any_eq_true.mpr ⟨r, hr, by simp [hrp, hax]⟩)

/-- Sibling distinctness: within every scope the stored ordering values are
pairwise distinct. -/
def ScopeDistinct (rows : List Row) : Prop :=
  rows.Pairwise (fun r s => r.scope = s.scope → r.ordering ≠ s.ordering)

/-- State invariant maintained by the save path: distinct primary keys,
per-scope distinct orderings, and non-negative orderings. -/
def OrderInv (rows : List Row) : Prop :=
  (rows.map Row.pk).Nodup ∧ ScopeDistinct rows ∧ ∀ r ∈ rows, 0 ≤ r.ordering

theorem scopeDistinct_replace {rows : List Row} {new : Row}
    (hnd : (rows.map Row.pk).Nodup)
    (hpw : ScopeDistinct rows)
    (hnew : ∀ s ∈ rows, s.pk ≠ new.pk →
      (new.scope = s.scope → new.ordering ≠ s.ordering) ∧
      (s.scope = new.scope → s.ordering ≠ new.ordering)) :
    ScopeDistinct (rows.map (fun r => if r.pk == new.pk then new else r)) := by
  induction rows with
  | nil => exact List.Pairwise.nil
  | cons a rs ih =>
    unfold ScopeDistinct
    rw [List.map_cons, List.pairwise_cons]
    rw [List.map_cons, List.nodup_cons] at hnd
    unfold ScopeDistinct at hpw
    rw [List.pairwise_cons] at hpw
    constructor
    · intro b' hb'
      obtain ⟨b, hb, hfb⟩ := List.mem_map.mp hb'
      by_cases hapk : a.pk = new.pk
      · have hbpk : b.pk ≠ new.pk := by
          rw [← hapk]
          intro hcontra
          exact hnd.1 (List.mem_map.mpr ⟨b, hb, hcontra⟩)
        have hfb2 : b' = b := by rw [← hfb]; simp [hbpk]
        have hfa : (if a.pk == new.pk then new else a) = new := by simp [hapk]
        rw [hfa, hfb2]
        exact (hnew b (List.mem_cons_of_mem a hb) hbpk).1
      · have hfa : (if a.pk == new.pk then new else a) = a := by simp [hapk]
        rw [hfa]
        by_cases hbpk : b.pk = new.pk
        · have hfb2 : b' = new := by rw [← hfb]; simp [hbpk]
          rw [hfb2]
          exact (hnew a (List.mem_cons_self a rs) hapk).2
        · have hfb2 : b' = b := by rw [← hfb]; simp [hbpk]
          rw [hfb2]
          exact hpw.1 b hb
    · exact ih hnd.2 hpw.2 (fun s hs hspk => hnew s (List.mem_cons_of_mem a hs) hspk)

theorem scopeDistinct_append {rows : List Row} {new : Row}
    (hpw : ScopeDistinct rows)
    (hany : rows.any (fun r => r.pk == new.pk) = false)
    (hnew : ∀ s ∈ rows, s.pk ≠ new.pk →
      (s.scope = new.scope → s.ordering ≠ new.ordering)) :
    ScopeDistinct (rows ++ [new]) := by
  unfold ScopeDistinct
  rw [List.pairwise_append]
  refine ⟨hpw, List.pairwise_singleton _ _, ?_⟩
  intro a ha b hb
  have hb2 : b = new := by simpa using hb
  have hapk : a.pk ≠ new.pk := by
    intro hcontra
    have : rows.any (fun r => r.pk == new.pk) = true :=
      List.any_eq_true.mpr ⟨a, ha, by simp [hcontra]⟩
    rw [hany] at this
    cases this
  rw [hb2]
  exact hnew a ha hapk

theorem orderInv_saveRow {rows rows' : List Row} {pk scope : Nat} {ord? : Option Int}
    (hinv : OrderInv rows) (h : saveRow rows pk scope ord? = Except.ok rows') :
    OrderInv rows' := by
  obtain ⟨hnd, hpw, hnn⟩ := hinv
  rw [saveRow] at h
  by_cases hf : fieldRangeOk ord? = true
  · rw [if_pos hf] at h
    by_cases hc : cleanOrdering rows pk scope ord? = true
    · rw [if_pos hc] at h
      injection h with h2
      subst h2
      have hnewp : ∀ s ∈ rows, s.pk ≠ pk →
          (scope = s.scope → pre_save rows ord? ≠ s.ordering) ∧
          (s.scope = scope → s.ordering ≠ pre_save rows ord?) := by
        intro s hs hspk
        cases ord? with
        | some v =>
          have hne := cleanOrdering_some hc hs
          constructor
          · intro hsc
            exact cleanOrdering_some hc hs hsc.symm hspk
          · intro hsc
            exact fun hcontra => cleanOrdering_some hc hs hsc hspk hcontra.symm
        | none =>
          have hlt := pre_save_lt_of_mem hs
          exact ⟨fun _ => (ne_of_lt hlt).symm, fun _ => ne_of_lt hlt⟩
      refine ⟨upsertRow_pks_nodup hnd, ?_, ?_⟩
      · rw [upsertRow]
        split
        · exact scopeDistinct_replace hnd hpw
            (fun s hs hspk => hnewp s hs hspk)
        · next hanyneg =>
          have hany : rows.any
              (fun r => r.pk == (⟨pk, scope, pre_save rows ord?⟩ : Row).pk) = false := by
            revert hanyneg
            cases rows.any (fun r => r.pk == (⟨pk, scope, pre_save rows ord?⟩ : Row).pk)
            · intro _; rfl
            · intro hcontra; exact absurd rfl hcontra
          exact scopeDistinct_append hpw hany
            (fun s hs hspk => (hnewp s hs hspk).2)
      · intro r hr
        rcases mem_upsertRow hr with hre | ⟨hrm, _⟩
        · rw [hre]
          cases ord? with
          | some v =>
            rw [fieldRangeOk] at hf
            have := (Bool.and_eq_true _ _).mp hf
            simpa using this.1
          | none =>
            show 0 ≤ pre_save rows none
            rw [pre_save]
            cases hgm : globalMaxOrdering rows with
            | none => simp
            | some m =>
              obtain ⟨s, hsm, hso⟩ := globalMaxOrdering_attained hgm
              have := hnn s hsm
              simp only [Option.elim_some]
              omega
        · exact hnn r hrm
    · rw [if_neg hc] at h
      cases h
  · rw [if_neg hf] at h
    cases h

theorem orderInv_applySaveRow {rows : List Row} (hinv : OrderInv rows)
    (req : Nat × Nat × Option Int) : OrderInv (applySaveRow rows req) := by
  rw [applySaveRow]
  cases hs : saveRow rows req.1 req.2.1 req.2.2 with
  | ok rows' => exact orderInv_saveRow hinv hs
  | error e => exact hinv

theorem orderInv_foldl (reqs : List (Nat × Nat × Option Int)) {rows : List Row}
    (hinv : OrderInv rows) : OrderInv (reqs.foldl applySaveRow rows) := by
  induction reqs generalizing rows with
  | nil => exact hinv
  | cons req rest ih => exact ih (orderInv_applySaveRow hinv req)

/-
Claim theorems for the ordering mechanism.
-/

/-- C1: the claim states that an unset ordering is assigned 1 + the maximum
ordering among the SIBLING rows sharing the scope value (1 if no siblings),
never a global maximum.  The code violates this: with a single existing row
in a different scope holding ordering 5, creating a row in a fresh scope
with ordering unset stores 6 (= 1 + the global maximum), while the
per-scope rule of the spec yields 1.  This evaluates the embedded code at
that failing input. -/
theorem c1_pre_save_uses_global_max :
    saveRow [⟨1, 0, 5⟩] 2 1 none = Except.ok [⟨1, 0, 5⟩, ⟨2, 1, 6⟩] ∧
    pre_save [⟨1, 0, 5⟩] none = 6 ∧
    specNextOrdering [⟨1, 0, 5⟩] 1 = 1 ∧
    pre_save [⟨1, 0, 5⟩] none ≠ specNextOrdering [⟨1, 0, 5⟩] 1 := by
  refine ⟨rfl, rfl, rfl, by decide⟩

/-- C2 counterexample: the claim asserts that after any sequence of
validated saves the per-scope orderings are pairwise distinct STRICTLY
POSITIVE integers.  A single create that explicitly supplies ordering 0
passes field validation (a PositiveIntegerField admits 0) and the duplicate
scan, and persists ordering 0, which is not strictly positive. -/
theorem c2_counterexample_zero_ordering :
    applySaveRow [] (1, 0, some 0) = [⟨1, 0, 0⟩] ∧
    ¬ ∀ r ∈ applySaveRow [] (1, 0, some 0), 0 < r.ordering := by
  refine ⟨rfl, ?_⟩
  intro hall
  have := hall ⟨1, 0, 0⟩ (by rw [show applySaveRow [] (1, 0, some 0) = [⟨1, 0, 0⟩] from rfl]; exact List.mem_singleton_self _)
  simp at this

/-- C2 (amended): after any sequence of creates/updates that pass
validation, starting from an empty table, the ordering values within each
scope are pairwise distinct NON-NEGATIVE integers; zero is reachable (by an
explicit assignment), so strict positivity does not hold. -/
theorem c2_scope_distinct_amended (reqs : List (Nat × Nat × Option Int)) :
    ScopeDistinct (reqs.foldl applySaveRow []) ∧
    ∀ r ∈ reqs.foldl applySaveRow [], 0 ≤ r.ordering := by
  have hinv : OrderInv (reqs.foldl applySaveRow []) := by
    refine orderInv_foldl reqs ?_
    exact ⟨List.nodup_nil, List.Pairwise.nil, by intro r hr; cases hr⟩
  exact ⟨hinv.2.1, hinv.2.2⟩

/-- C3: a save whose explicit ordering collides with a sibling row (same
scope, different pk) fails with the duplicate-ordering error and leaves the
table unchanged; concretely, after a product line with ordering 3 exists
under scope 7, a second create under scope 7 with ordering 3 fails and the
table still contains exactly one row with ordering 3. -/
theorem c3_duplicate_ordering_rejected (rows : List Row) (pk scope : Nat) (v : Int)
    (hdup : ∃ r ∈ rows, r.scope = scope ∧ r.pk ≠ pk ∧ r.ordering = v) :
    (saveRow rows pk scope (some v) = Except.error SaveError.duplicateOrdering ∨
      saveRow rows pk scope (some v) = Except.error SaveError.fieldRange) ∧
    applySaveRow rows (pk, scope, some v) = rows ∧
    ([((1:Nat), (7:Nat), some (3:Int)), (2, 7, some 3)].foldl applySaveRow [] = [⟨1, 7, 3⟩] ∧
      (([((1:Nat), (7:Nat), some (3:Int)), (2, 7, some 3)].foldl applySaveRow []).filter
        (fun r => r.ordering == 3)).length = 1) := by
  obtain ⟨r, hr, hsc, hpk, hord⟩ := hdup
  have hclean : cleanOrdering rows pk scope (some v) = false := by
    by_contra hcontra
    have hct : cleanOrdering rows pk scope (some v) = true := by
      revert hcontra
      cases cleanOrdering rows pk scope (some v)
      · intro hcontra; exact absurd rfl hcontra
      · intro _; rfl
    exact cleanOrdering_some hct hr hsc hpk hord.symm
  have hsave : saveRow rows pk scope (some v) = Except.error SaveError.duplicateOrdering ∨
      saveRow rows pk scope (some v) = Except.error SaveError.fieldRange := by
    rw [saveRow]
    by_cases hf : fieldRangeOk (some v) = true
    · left
      rw [if_pos hf, hclean]
      rfl
    · right
      rw [if_neg hf]
  refine ⟨hsave, ?_, by decide, by decide⟩
  rw [applySaveRow]
  rcases hsave with hs | hs <;> rw [hs]

/-- C3 witness: the rejection theorem applied at the concrete state that
contains a line with ordering 3 under scope 7. -/
theorem c3_witness :
    saveRow [⟨1, 7, 3⟩] 2 7 (some 3) = Except.error SaveError.duplicateOrdering ∨
    saveRow [⟨1, 7, 3⟩] 2 7 (some 3) = Except.error SaveError.fieldRange :=
  (c3_duplicate_ordering_rejected [⟨1, 7, 3⟩] 2 7 3
    ⟨⟨1, 7, 3⟩, List.mem_singleton_self _, rfl, by decide, rfl⟩).1

/-- C4: creating three product lines under the same product P with no
ordering supplied, starting from an empty table (the fresh state of the
spec's test scenario), assigns them orderings 1, 2, 3 in creation order. -/
theorem c4_auto_assignment_one_two_three (P : Nat) :
    [(1, P, (none : Option Int)), (2, P, none), (3, P, none)].foldl applySaveRow []
      = [⟨1, P, 1⟩, ⟨2, P, 2⟩, ⟨3, P, 3⟩] := by
  simp [applySaveRow, saveRow, cleanOrdering, fieldRangeOk, pre_save,
    globalMaxOrdering, upsertRow]

/-- C5: for two distinct products A and B, a product line of A with
ordering 1 and a product line of B with ordering 1 are both created
successfully and coexist; moreover the duplicate scan of clean() only ever
inspects rows sharing the scope value. -/
theorem c5_scope_independence (A B : Nat) (hAB : A ≠ B) :
    saveRow [] 1 A (some 1) = Except.ok [⟨1, A, 1⟩] ∧
    saveRow [⟨1, A, 1⟩] 2 B (some 1) = Except.ok [⟨1, A, 1⟩, ⟨2, B, 1⟩] ∧
    ∀ rows pk scope ord?, cleanOrdering rows pk scope ord? =
      cleanOrdering (rows.filter (fun r => r.scope == scope)) pk scope ord? := by
  have hba : (A == B) = false := by
    simpa using hAB
  refine ⟨rfl, ?_, ?_⟩
  · rw [saveRow]
    have hclean : cleanOrdering [⟨1, A, 1⟩] 2 B (some 1) = true := by
      rw [cleanOrdering]
      simp [hba]
    rw [hclean]
    rfl
  · intro rows pk scope ord?
    rw [cleanOrdering, cleanOrdering, List.filter_filter]
    have hps : ∀ r : Row,
        (((r.scope == scope) && (r.pk != pk)) && (r.scope == scope))
          = ((r.scope == scope) && (r.pk != pk)) := by
      intro r
      cases h : r.scope == scope <;> simp
    simp only [hps]

/-- C5 witness: the coexistence theorem at products A = 0 and B = 1. -/
theorem c5_witness :
    saveRow [⟨1, 0, 1⟩] 2 1 (some 1) = Except.ok [⟨1, 0, 1⟩, ⟨2, 1, 1⟩] :=
  (c5_scope_independence 0 1 (by decide)).2.1

/-- C10 counterexample: the claim adds that the auto-assigned value is 1
ONLY when the table is entirely empty.  With a stored row whose ordering is
0 (reachable by an explicit assignment), the auto-assigned value is
0 + 1 = 1 while the table is nonempty. -/
theorem c10_counterexample_one_on_nonempty :
    pre_save [⟨1, 5, 0⟩] none = 1 ∧
    ([⟨1, 5, 0⟩] : List Row) ≠ [] ∧
    saveRow [⟨1, 5, 0⟩] 2 5 none = Except.ok [⟨1, 5, 0⟩, ⟨2, 5, 1⟩] := by
  refine ⟨rfl, by decide, rfl⟩

/-- C10 (amended): a save with ordering unset always succeeds and stores
the value computed by pre_save; that value is strictly greater than every
ordering already stored for any row of the table in any scope, equals
1 + the global maximum when the table is nonempty, and equals 1 when the
table is empty (it can also equal 1 on a nonempty table whose maximum is
0).  In particular it never equals the ordering of an existing sibling. -/
theorem c10_auto_assign_global_amended (rows : List Row) :
    (∀ r ∈ rows, r.ordering < pre_save rows none) ∧
    (rows = [] → pre_save rows none = 1) ∧
    (∀ m, globalMaxOrdering rows = some m → pre_save rows none = m + 1) ∧
    (∀ pk scope, saveRow rows pk scope none =
      Except.ok (upsertRow rows ⟨pk, scope, pre_save rows none⟩)) := by
  refine ⟨fun r hr => pre_save_lt_of_mem hr, ?_, ?_, ?_⟩
  · intro h
    rw [h]
    rfl
  · intro m hm
    rw [pre_save, hm]
    rfl
  · intro pk scope
    rw [saveRow, cleanOrdering_none]
    rfl

/-- C10 witness: the amended theorem applied at the one-row table holding
ordering 0, whose global maximum is 0. -/
theorem c10_witness : pre_save [⟨1, 5, 0⟩] none = 0 + 1 :=
  (c10_auto_assign_global_amended [⟨1, 5, 0⟩]).2.2.1 0 rfl

/-
Part 2: the category tree.

The source declares Category (product/models.py lines 25-49) as a
self-referencing model: a nullable parent reference with
on_delete=SET_NULL.  The cycle rejection on reparenting and the descendant
query are delegated to the third-party mptt tree library, which is not part
of this repository; those two operations are therefore modelled from the
spec (CategoryTree.reparent and CategoryTree.descendants).  Only the fields
the tree logic reads are kept: id and the parent reference.
-/

structure Cat where
  id : Nat
  parent : Option Nat
deriving DecidableEq, Repr

/-- The ids present in the table. -/
def catIds (cats : List Cat) : List Nat := cats.map Cat.id

/-- Parent lookup by id (none when the id is absent or the row is a root). -/
def parentOf (cats : List Cat) (i : Nat) : Option Nat :=
  match cats.find? (fun c => c.id == i) with
  | none => none
  | some c => c.parent

/-- Iterate the parent reference a given number of times. -/
def iterParent (cats : List Cat) : Nat → Nat → Option Nat
  | 0, i => some i
  | fuel + 1, i =>
    match parentOf cats i with
    | none => none
    | some p => iterParent cats fuel p

/-- The chain of (strict) ancestors of a node, followed for at most fuel
steps. -/
def ancestorsFrom (cats : List Cat) : Nat → Nat → List Nat
  | 0, _ => []
  | fuel + 1, i =>
    match parentOf cats i with
    | none => []
    | some p => p :: ancestorsFrom cats fuel p

/-- Transitive reachability along parent references: ParentReaches cats a b
holds when following one or more parent links from a arrives at b.
Equivalently, a is a strict descendant of b along child links. -/
inductive ParentReaches (cats : List Cat) : Nat → Nat → Prop
  | step {a b : Nat} : parentOf cats a = some b → ParentReaches cats a b
  | trans {a p b : Nat} : parentOf cats a = some p → ParentReaches cats p b →
      ParentReaches cats a b

/-- Referential integrity of the parent column: every stored parent id
refers to an existing row (the database enforces this for the foreign
key). -/
def WFParents (cats : List Cat) : Prop :=
  ∀ c ∈ cats, ∀ p, c.parent = some p → p ∈ catIds cats

/-- Decidable check of WFParents. -/
def wfParentsB (cats : List Cat) : Bool :=
  cats.all (fun c =>
    match c.parent with
    | none => true
    | some p => (catIds cats).contains p)

/-- Acyclicity of the parent graph: no node reaches itself. -/
def Acyclic (cats : List Cat) : Prop := ∀ i, ¬ ParentReaches cats i i

/-- Decidable acyclicity check: no node occurs in its own bounded ancestor
chain. -/
def acyclicB (cats : List Cat) : Bool :=
  cats.all (fun c => !((ancestorsFrom cats cats.length c.id).contains c.id))

/-- Whether x is a strict descendant of root, computed on the bounded
ancestor chain of x. -/
def isDescendantOf (cats : List Cat) (root x : Nat) : Bool :=
  (ancestorsFrom cats cats.length x).contains root

/-- Modelled from the spec: CategoryTree.descendants(node, include_self)
produces all categories reachable by following child links transitively
from the node, plus the node itself when include_self is set.  (The source
calls the mptt library's get_descendants(include_self=...) in
ProductViewSet.get_queryset; mptt is outside the repository.) -/
def descendants (cats : List Cat) (root : Nat) (includeSelf : Bool) : List Nat :=
  (cats.filter (fun c => (includeSelf && c.id == root) || isDescendantOf cats root c.id)).map
    Cat.id

/-- Error kinds of the tree operations (the spec's CyclicParentError and
UnresolvedScopeReferenceError; duplicateId is the database's primary-key
uniqueness on create). -/
inductive TreeError
  | cyclicParent
  | unresolvedRef
  | duplicateId
deriving DecidableEq, Repr

/-- Creating a category: the id must be fresh (primary key) and a supplied
parent must reference an existing row; no cycle check is needed since a new
node cannot be its own ancestor. -/
def createCat (cats : List Cat) (i : Nat) (parent? : Option Nat) :
    Except TreeError (List Cat) :=
  if cats.any (fun c => c.id == i) then
    Except.error TreeError.duplicateId
  else if parent?.elim true (fun p => cats.any (fun c => c.id == p)) then
    Except.ok (cats ++ [⟨i, parent?⟩])
  else
    Except.error TreeError.unresolvedRef

/-- Modelled from the spec: CategoryTree.reparent(node, new_parent) rejects
a new parent that is the node itself or a descendant of the node with
CyclicParentError; both endpoints must resolve to existing rows.  (The
source relies on the mptt library's move validation, outside the
repository.) -/
def reparentCat (cats : List Cat) (node newParent : Nat) :
    Except TreeError (List Cat) :=
  if cats.any (fun c => c.id == node) && cats.any (fun c => c.id == newParent) then
    if newParent == node || isDescendantOf cats node newParent then
      Except.error TreeError.cyclicParent
    else
      Except.ok (cats.map (fun c => if c.id == node then ⟨c.id, some newParent⟩ else c))
  else
    Except.error TreeError.unresolvedRef

/-- Deleting a category (Category.parent declares on_delete=SET_NULL): the
row is removed and every direct child has its parent reference cleared;
no other row is touched. -/
def deleteCat (cats : List Cat) (node : Nat) : List Cat :=
  (cats.filter (fun c => c.id != node)).map
    (fun c => if c.parent == some node then ⟨c.id, none⟩ else c)

/-- The tree operations reachable through the API layer. -/
inductive TreeOp
  | create (i : Nat) (parent? : Option Nat)
  | reparent (node newParent : Nat)
  | delete (node : Nat)

/-- One operation against the category table; a rejected operation leaves
the table unchanged. -/
def applyTreeOp (cats : List Cat) : TreeOp → List Cat
  | TreeOp.create i p? =>
    match createCat cats i p? with
    | Except.ok cats' => cats'
    | Except.error _ => cats
  | TreeOp.reparent n p =>
    match reparentCat cats n p with
    | Except.ok cats' => cats'
    | Except.error _ => cats
  | TreeOp.delete n => deleteCat cats n

/-
Lemmas about parent chains and reachability.
-/

theorem iterParent_zero (cats : List Cat) (i : Nat) : iterParent cats 0 i = some i := rfl

theorem iterParent_succ (cats : List Cat) (fuel i : Nat) :
    iterParent cats (fuel + 1) i =
      match parentOf cats i with
      | none => none
      | some p => iterParent cats fuel p := rfl

theorem parentOf_mem {cats : List Cat} {i p : Nat} (h : parentOf cats i = some p) :
    ∃ c ∈ cats, c.id = i ∧ c.parent = some p := by
  rw [parentOf] at h
  cases hf : cats.find? (fun c => c.id == i) with
  | none => rw [hf] at h; cases h
  | some c =>
    rw [hf] at h
    have hmem := List.mem_of_find?_eq_some hf
    have hpred := List.find?_some hf
    exact ⟨c, hmem, by simpa using hpred, h⟩

theorem wfParentsB_spec {cats : List Cat} (h : wfParentsB cats = true) :
    WFParents cats := by
  intro c hc p hp
  have := List.all_eq_true.mp h c hc
  rw [hp] at this
  simpa using this

theorem iterParent_add (cats : List Cat) (a b x : Nat) :
    iterParent cats (a + b) x = Option.bind (iterParent cats a x) (iterParent cats b) := by
  induction a generalizing x with
  | zero => simp [iterParent]
  | succ a ih =>
    rw [Nat.succ_add]
    rw [iterParent, iterParent]
    cases hp : parentOf cats x with
    | none => simp
    | some p => simpa using ih p

theorem iterParent_reaches {cats : List Cat} {k x y : Nat}
    (h : iterParent cats (k + 1) x = some y) : ParentReaches cats x y := by
  induction k generalizing x with
  | zero =>
    rw [iterParent_succ] at h
    cases hp : parentOf cats x with
    | none => rw [hp] at h; cases h
    | some p =>
      rw [hp] at h
      have h2 : some p = some y := h
      injection h2 with h3
      subst h3
      exact ParentReaches.step hp
  | succ k ih =>
    rw [iterParent_succ] at h
    cases hp : parentOf cats x with
    | none => rw [hp] at h; cases h
    | some p =>
      rw [hp] at h
      exact ParentReaches.trans hp (ih h)

theorem reaches_iterParent {cats : List Cat} {x y : Nat}
    (h : ParentReaches cats x y) : ∃ k, iterParent cats (k + 1) x = some y := by
  induction h with
  | step hp =>
    refine ⟨0, ?_⟩
    rw [iterParent_succ, hp]
    rfl
  | trans hp _ ih =>
    obtain ⟨k, hk⟩ := ih
    refine ⟨k + 1, ?_⟩
    rw [iterParent_succ, hp]
    exact hk

theorem iterParent_mem {cats : List Cat} (hwf : WFParents cats) {k x y : Nat}
    (hx : x ∈ catIds cats) (h : iterParent cats k x = some y) : y ∈ catIds cats := by
  induction k generalizing x with
  | zero =>
    rw [iterParent_zero] at h
    injection h with h2
    subst h2
    exact hx
  | succ k ih =>
    rw [iterParent_succ] at h
    cases hp : parentOf cats x with
    | none => rw [hp] at h; cases h
    | some p =>
      rw [hp] at h
      obtain ⟨c, hc, _, hcp⟩ := parentOf_mem hp
      exact ih (hwf c hc p hcp) h

theorem iterParent_defined_prefix {cats : List Cat} {a b x z : Nat}
    (h : iterParent cats (a + b) x = some z) : ∃ y, iterParent cats a x = some y := by
  rw [iterParent_add] at h
  cases hy : iterParent cats a x with
  | none => rw [hy] at h; cases h
  | some y => exact ⟨y, rfl⟩

theorem mem_ancestorsFrom_iff {cats : List Cat} {fuel x root : Nat} :
    root ∈ ancestorsFrom cats fuel x ↔
      ∃ k, k < fuel ∧ iterParent cats (k + 1) x = some root := by
  induction fuel generalizing x with
  | zero =>
    rw [ancestorsFrom]
    simp
  | succ fuel ih =>
    rw [ancestorsFrom]
    cases hp : parentOf cats x with
    | none =>
      simp only [List.not_mem_nil, false_iff]
      rintro ⟨k, _, hk⟩
      rw [iterParent_succ, hp] at hk
      cases hk
    | some p =>
      simp only [List.mem_cons]
      constructor
      · rintro (hr | hr)
        · subst hr
          refine ⟨0, Nat.succ_pos _, ?_⟩
          rw [iterParent_succ, hp]
          rfl
        · obtain ⟨k, hkf, hk⟩ := ih.mp hr
          refine ⟨k + 1, Nat.succ_lt_succ hkf, ?_⟩
          rw [iterParent_succ, hp]
          exact hk
      · rintro ⟨k, hkf, hk⟩
        rw [iterParent_succ, hp] at hk
        cases k with
        | zero =>
          have h2 : some p = some root := hk
          injection h2 with h3
          exact Or.inl h3.symm
        | succ k =>
          exact Or.inr (ih.mpr ⟨k, Nat.lt_of_succ_lt_succ hkf, hk⟩)

theorem chain_mem_reaches {cats : List Cat} {fuel x root : Nat}
    (h : root ∈ ancestorsFrom cats fuel x) : ParentReaches cats x root := by
  obtain ⟨k, _, hk⟩ := mem_ancestorsFrom_iff.mp h
  exact iterParent_reaches hk

theorem reaches_src_mem {cats : List Cat} {a b : Nat} (h : ParentReaches cats a b) :
    a ∈ catIds cats := by
  cases h with
  | step hp =>
    obtain ⟨c, hc, hcid, _⟩ := parentOf_mem hp
    exact List.mem_map.mpr ⟨c, hc, hcid⟩
  | trans hp _ =>
    obtain ⟨c, hc, hcid, _⟩ := parentOf_mem hp
    exact List.mem_map.mpr ⟨c, hc, hcid⟩

theorem long_chain_cycle {cats : List Cat} {x root k : Nat}
    (hwf : WFParents cats) (hx : x ∈ catIds cats)
    (h : iterParent cats (k + 1) x = some root) (hk : cats.length ≤ k) :
    ∃ a ∈ catIds cats, a ∈ ancestorsFrom cats cats.length a := by
  have hdef : ∀ i, i ≤ cats.length → ∃ y, iterParent cats i x = some y := by
    intro i hi
    have hsum : i + (k + 1 - i) = k + 1 := by omega
    have h2 : iterParent cats (i + (k + 1 - i)) x = some root := by
      rw [hsum]
      exact h
    exact iterParent_defined_prefix h2
  have key : ∀ i j : Nat, i < j → j ≤ cats.length →
      (iterParent cats i x).getD 0 = (iterParent cats j x).getD 0 →
      ∃ a ∈ catIds cats, a ∈ ancestorsFrom cats cats.length a := by
    intro i j hij hjn hg
    obtain ⟨a, ha⟩ := hdef i (le_of_lt (lt_of_lt_of_le hij hjn))
    obtain ⟨b, hb⟩ := hdef j hjn
    rw [ha, hb] at hg
    simp only [Option.getD_some] at hg
    subst hg
    have hsplit : Option.bind (iterParent cats i x) (iterParent cats (j - i)) = some a := by
      rw [← iterParent_add, show i + (j - i) = j from by omega]
      exact hb
    rw [ha] at hsplit
    have hloop : iterParent cats (j - i) a = some a := hsplit
    have hji : j - i = (j - i - 1) + 1 := by omega
    rw [hji] at hloop
    refine ⟨a, iterParent_mem hwf hx ha, ?_⟩
    exact mem_ancestorsFrom_iff.mpr ⟨j - i - 1, by omega, hloop⟩
  have hmapsto : ∀ i ∈ Finset.range (cats.length + 1),
      (iterParent cats i x).getD 0 ∈ (catIds cats).toFinset := by
    intro i hi
    rw [Finset.mem_range] at hi
    obtain ⟨y, hy⟩ := hdef i (Nat.lt_succ_iff.mp hi)
    rw [hy]
    simpa [List.mem_toFinset] using iterParent_mem hwf hx hy
  have hcard : (catIds cats).toFinset.card < (Finset.range (cats.length + 1)).card := by
    rw [Finset.card_range]
    refine Nat.lt_succ_of_le (le_trans (List.toFinset_card_le _) ?_)
    simp [catIds]
  obtain ⟨i, hi, j, hj, hij, hgij⟩ :=
    Finset.exists_ne_map_eq_of_card_lt_of_maps_to hcard hmapsto
  rw [Finset.mem_range] at hi hj
  rcases Nat.lt_trichotomy i j with hlt | heq | hgt
  · exact key i j hlt (by omega) hgij
  · exact absurd heq hij
  · exact key j i hgt (by omega) hgij.symm

theorem reaches_mem_ancestors {cats : List Cat} {x root : Nat}
    (hwf : WFParents cats) (hac : Acyclic cats)
    (h : ParentReaches cats x root) :
    root ∈ ancestorsFrom cats cats.length x := by
  have hx : x ∈ catIds cats := reaches_src_mem h
  obtain ⟨k, hk⟩ := reaches_iterParent h
  by_cases hkn : k < cats.length
  · exact mem_ancestorsFrom_iff.mpr ⟨k, hkn, hk⟩
  · obtain ⟨a, _, ha⟩ := long_chain_cycle hwf hx hk (by omega)
    exact absurd (chain_mem_reaches ha) (hac a)

theorem acyclicB_spec {cats : List Cat} (hwf : WFParents cats)
    (h : acyclicB cats = true) : Acyclic cats := by
  intro i hreach
  have hx : i ∈ catIds cats := reaches_src_mem hreach
  obtain ⟨k, hk⟩ := reaches_iterParent hreach
  have hbad : ∃ a ∈ catIds cats, a ∈ ancestorsFrom cats cats.length a := by
    by_cases hkn : k < cats.length
    · exact ⟨i, hx, mem_ancestorsFrom_iff.mpr ⟨k, hkn, hk⟩⟩
    · exact long_chain_cycle hwf hx hk (by omega)
  obtain ⟨a, hamem, hachain⟩ := hbad
  obtain ⟨c, hc, hcid⟩ := List.mem_map.mp hamem
  have hall := List.all_eq_true.mp h c hc
  rw [hcid] at hall
  have hnotin : a ∉ ancestorsFrom cats cats.length a := by
    simpa using hall
  exact hnotin hachain

theorem isDescendantOf_iff {cats : List Cat} {root x : Nat}
    (hwf : WFParents cats) (hac : Acyclic cats) :
    isDescendantOf cats root x = true ↔ ParentReaches cats x root := by
  rw [isDescendantOf]
  constructor
  · intro h
    exact chain_mem_reaches (x := x) (by simpa using h)
  · intro h
    simpa using reaches_mem_ancestors hwf hac h

/-
Structural lemmas about parentOf under the three tree operations.
-/

theorem parentOf_nil (x : Nat) : parentOf [] x = none := rfl

theorem parentOf_cons (c : Cat) (cs : List Cat) (x : Nat) :
    parentOf (c :: cs) x = if c.id = x then c.parent else parentOf cs x := by
  by_cases h : c.id = x
  · rw [parentOf, List.find?_cons_of_pos _ (by simp [h]), if_pos h]
  · rw [parentOf, List.find?_cons_of_neg _ (by simp [h]), if_neg h, parentOf]

theorem catIds_nil : catIds [] = [] := rfl

theorem catIds_cons (c : Cat) (cs : List Cat) : catIds (c :: cs) = c.id :: catIds cs := rfl

theorem catIds_append (cats : List Cat) (e : Cat) :
    catIds (cats ++ [e]) = catIds cats ++ [e.id] := by
  rw [catIds, catIds, List.map_append]
  rfl

theorem parentOf_append_ne {cats : List Cat} {e : Cat} {x : Nat} (hx : e.id ≠ x) :
    parentOf (cats ++ [e]) x = parentOf cats x := by
  induction cats with
  | nil =>
    rw [List.nil_append, parentOf_cons, if_neg hx]
  | cons a cs ih =>
    rw [List.cons_append, parentOf_cons, parentOf_cons, ih]

theorem parentOf_append_self {cats : List Cat} {i : Nat} {par : Option Nat}
    (hfresh : i ∉ catIds cats) :
    parentOf (cats ++ [⟨i, par⟩]) i = par := by
  induction cats with
  | nil =>
    rw [List.nil_append, parentOf_cons]
    simp
  | cons a cs ih =>
    rw [catIds_cons] at hfresh
    have ha : a.id ≠ i := fun hcontra => hfresh (hcontra ▸ List.mem_cons_self _ _)
    rw [List.cons_append, parentOf_cons, if_neg ha]
    exact ih (fun hmem => hfresh (List.mem_cons_of_mem _ hmem))

theorem parentOf_reparent_inv {cats : List Cat} {node np x p : Nat}
    (h : parentOf (cats.map (fun c => if c.id == node then ⟨c.id, some np⟩ else c)) x
      = some p) :
    (x = node ∧ p = np) ∨ (x ≠ node ∧ parentOf cats x = some p) := by
  induction cats with
  | nil => rw [List.map_nil, parentOf_nil] at h; cases h
  | cons a cs ih =>
    rw [List.map_cons, parentOf_cons] at h
    have hfid : (if a.id == node then (⟨a.id, some np⟩ : Cat) else a).id = a.id := by
      by_cases han : a.id = node <;> simp [han]
    rw [hfid] at h
    by_cases hax : a.id = x
    · rw [if_pos hax] at h
      by_cases han : a.id = node
      · left
        rw [han] at hax
        refine ⟨hax.symm, ?_⟩
        have h2 : some np = some p := by simpa [han] using h
        injection h2 with h3
        exact h3.symm
      · right
        have h2 : a.parent = some p := by simpa [han] using h
        refine ⟨fun hxn => han (hax.trans hxn), ?_⟩
        rw [parentOf_cons, if_pos hax]
        exact h2
    · rw [if_neg hax] at h
      rcases ih h with h2 | ⟨hxn, h2⟩
      · exact Or.inl h2
      · right
        refine ⟨hxn, ?_⟩
        rw [parentOf_cons, if_neg hax]
        exact h2

theorem deleteCat_cons (a : Cat) (cs : List Cat) (node : Nat) :
    deleteCat (a :: cs) node =
      if a.id = node then deleteCat cs node
      else (if a.parent == some node then (⟨a.id, none⟩ : Cat) else a) :: deleteCat cs node := by
  rw [deleteCat, deleteCat, List.filter_cons]
  by_cases h : a.id = node
  · simp [h]
  · simp [h]

theorem parentOf_deleteCat {cats : List Cat} {node x p : Nat}
    (h : parentOf (deleteCat cats node) x = some p) :
    x ≠ node ∧ parentOf cats x = some p := by
  induction cats with
  | nil =>
    rw [show deleteCat [] node = [] from rfl, parentOf_nil] at h
    cases h
  | cons a cs ih =>
    rw [deleteCat_cons] at h
    by_cases han : a.id = node
    · rw [if_pos han] at h
      obtain ⟨hxn, hp⟩ := ih h
      refine ⟨hxn, ?_⟩
      rw [parentOf_cons, if_neg (fun hcontra => hxn (hcontra.symm.trans han))]
      exact hp
    · rw [if_neg han] at h
      have hgid : (if a.parent == some node then (⟨a.id, none⟩ : Cat) else a).id = a.id := by
        by_cases hpar : a.parent = some node <;> simp [hpar]
      rw [parentOf_cons, hgid] at h
      by_cases hax : a.id = x
      · rw [if_pos hax] at h
        by_cases hpar : a.parent = some node
        · simp [hpar] at h
        · have h2 : a.parent = some p := by simpa [hpar] using h
          refine ⟨fun hxn => han (hax.trans hxn), ?_⟩
          rw [parentOf_cons, if_pos hax]
          exact h2
      · rw [if_neg hax] at h
        obtain ⟨hxn, hp⟩ := ih h
        refine ⟨hxn, ?_⟩
        rw [parentOf_cons, if_neg hax]
        exact hp

theorem reaches_mono {cats cats' : List Cat}
    (hsub : ∀ x p, parentOf cats' x = some p → parentOf cats x = some p)
    {a b : Nat} (h : ParentReaches cats' a b) : ParentReaches cats a b := by
  induction h with
  | step hp => exact ParentReaches.step (hsub _ _ hp)
  | trans hp _ ih => exact ParentReaches.trans (hsub _ _ hp) ih

theorem reaches_trans {cats : List Cat} {a b c : Nat}
    (h1 : ParentReaches cats a b) (h2 : ParentReaches cats b c) :
    ParentReaches cats a c := by
  induction h1 with
  | step hp => exact ParentReaches.trans hp h2
  | trans hp _ ih => exact ParentReaches.trans hp (ih h2)

theorem mem_catIds_of_any {cats : List Cat} {p : Nat}
    (h : cats.any (fun c => c.id == p) = true) : p ∈ catIds cats := by
  obtain ⟨c, hc, hcid⟩ := List.any_eq_true.mp h
  exact List.mem_map.mpr ⟨c, hc, by simpa using hcid⟩

theorem not_mem_catIds_of_any_eq_false {cats : List Cat} {i : Nat}
    (h : ¬ cats.any (fun c => c.id == i) = true) : i ∉ catIds cats := by
  intro hmem
  obtain ⟨c, hc, hcid⟩ := List.mem_map.mp hmem
  exact h (List.any_eq_true.mpr ⟨c, hc, by simp [hcid]⟩)

/-
Preservation of well-formedness and acyclicity by the tree operations.
-/

theorem reaches_target_ne {cats' : List Cat} {i : Nat}
    (hne : ∀ x q, parentOf cats' x = some q → q ≠ i)
    {a b : Nat} (h : ParentReaches cats' a b) : b ≠ i := by
  induction h with
  | step hp => exact hne _ _ hp
  | trans _ _ ih => exact ih

theorem reaches_append_inv {cats : List Cat} {e : Cat}
    (hne : ∀ x q, parentOf (cats ++ [e]) x = some q → q ≠ e.id)
    {a b : Nat} (h : ParentReaches (cats ++ [e]) a b) (ha : a ≠ e.id) :
    ParentReaches cats a b := by
  induction h with
  | step hp =>
    rw [parentOf_append_ne (fun hcontra => ha hcontra.symm)] at hp
    exact ParentReaches.step hp
  | trans hp _ ih =>
    have hpi := hne _ _ hp
    rw [parentOf_append_ne (fun hcontra => ha hcontra.symm)] at hp
    exact ParentReaches.trans hp (ih hpi)

theorem no_edge_to_fresh {cats : List Cat} {i : Nat} {par : Option Nat}
    (hwf : WFParents cats) (hfresh : i ∉ catIds cats)
    (hpar : ∀ p, par = some p → p ∈ catIds cats) :
    ∀ x q, parentOf (cats ++ [⟨i, par⟩]) x = some q → q ≠ i := by
  intro x q h hqi
  by_cases hx : x = i
  · rw [hx, parentOf_append_self hfresh] at h
    rw [hqi] at h
    exact hfresh (hpar i h)
  · rw [parentOf_append_ne (fun hcontra => hx hcontra.symm)] at h
    obtain ⟨c, hc, _, hcp⟩ := parentOf_mem h
    rw [hqi] at hcp
    exact hfresh (hwf c hc i hcp)

theorem acyclic_create {cats : List Cat} {i : Nat} {par : Option Nat}
    (hwf : WFParents cats) (hac : Acyclic cats) (hfresh : i ∉ catIds cats)
    (hpar : ∀ p, par = some p → p ∈ catIds cats) :
    Acyclic (cats ++ [⟨i, par⟩]) := by
  intro a hreach
  have hne := no_edge_to_fresh hwf hfresh hpar
  have hai : a ≠ i := reaches_target_ne hne hreach
  exact hac a (reaches_append_inv hne hreach hai)

theorem wf_create {cats : List Cat} {i : Nat} {par : Option Nat}
    (hwf : WFParents cats) (hpar : ∀ p, par = some p → p ∈ catIds cats) :
    WFParents (cats ++ [⟨i, par⟩]) := by
  intro c hc p hp
  rw [catIds_append]
  rcases List.mem_append.mp hc with hc2 | hc2
  · exact List.mem_append_left _ (hwf c hc2 p hp)
  · have hce : c = ⟨i, par⟩ := by simpa using hc2
    subst hce
    exact List.mem_append_left _ (hpar p hp)

theorem catIds_reparent (cats : List Cat) (node np : Nat) :
    catIds (cats.map (fun c => if c.id == node then ⟨c.id, some np⟩ else c))
      = catIds cats := by
  rw [catIds, catIds, List.map_map]
  apply List.map_congr_left
  intro c _
  by_cases h : c.id = node <;> simp [h]

theorem wf_reparent {cats : List Cat} {node np : Nat}
    (hwf : WFParents cats) (hnp : np ∈ catIds cats) :
    WFParents (cats.map (fun c => if c.id == node then ⟨c.id, some np⟩ else c)) := by
  intro c' hc' p hp
  rw [catIds_reparent]
  obtain ⟨c, hc, hfc⟩ := List.mem_map.mp hc'
  by_cases h : c.id = node
  · rw [← hfc] at hp
    have hp2 : some np = some p := by simpa [h] using hp
    injection hp2 with hp3
    exact hp3 ▸ hnp
  · rw [← hfc] at hp
    have hp2 : c.parent = some p := by simpa [h] using hp
    exact hwf c hc p hp2

theorem reparent_reaches_node {cats : List Cat} {node np : Nat} {x b : Nat}
    (h : ParentReaches (cats.map (fun c => if c.id == node then ⟨c.id, some np⟩ else c))
      x b) (hb : b = node) :
    x = node ∨ ParentReaches cats x node := by
  revert hb
  induction h with
  | step hp =>
    intro hb
    subst hb
    rcases parentOf_reparent_inv hp with ⟨hx, _⟩ | ⟨_, hp2⟩
    · exact Or.inl hx
    · exact Or.inr (ParentReaches.step hp2)
  | trans hp _ ih =>
    intro hb
    rcases parentOf_reparent_inv hp with ⟨hx, _⟩ | ⟨_, hp2⟩
    · exact Or.inl hx
    · rcases ih hb with hpn | hpn
      · exact Or.inr (ParentReaches.step (hpn ▸ hp2))
      · exact Or.inr (ParentReaches.trans hp2 hpn)

theorem reparent_reaches_inv {cats : List Cat} {node np : Nat} {a b : Nat}
    (h : ParentReaches (cats.map (fun c => if c.id == node then ⟨c.id, some np⟩ else c))
      a b) :
    ParentReaches cats a b ∨
      ((a = node ∨ ParentReaches cats a node) ∧
        (b = np ∨
          ParentReaches (cats.map (fun c => if c.id == node then ⟨c.id, some np⟩ else c))
            np b)) := by
  induction h with
  | step hp =>
    rcases parentOf_reparent_inv hp with ⟨hx, hpnp⟩ | ⟨_, hp2⟩
    · exact Or.inr ⟨Or.inl hx, Or.inl hpnp⟩
    · exact Or.inl (ParentReaches.step hp2)
  | trans hp hr ih =>
    rcases parentOf_reparent_inv hp with ⟨hx, hpnp⟩ | ⟨_, hp2⟩
    · exact Or.inr ⟨Or.inl hx, Or.inr (hpnp ▸ hr)⟩
    · rcases ih with hold | ⟨hnode, hb⟩
      · exact Or.inl (ParentReaches.trans hp2 hold)
      · refine Or.inr ⟨?_, hb⟩
        rcases hnode with hpn | hpn
        · exact Or.inr (ParentReaches.step (hpn ▸ hp2))
        · exact Or.inr (ParentReaches.trans hp2 hpn)

theorem acyclic_reparent {cats : List Cat} {node np : Nat}
    (hac : Acyclic cats) (hnn : np ≠ node) (hnr : ¬ ParentReaches cats np node) :
    Acyclic (cats.map (fun c => if c.id == node then ⟨c.id, some np⟩ else c)) := by
  intro a hreach
  rcases reparent_reaches_inv hreach with hold | ⟨hnode, hb⟩
  · exact hac a hold
  · rcases hnode with han | han
    · subst han
      rcases hb with hanp | hanp
      · exact hnn hanp.symm
      · rcases reparent_reaches_node hanp rfl with h2 | h2
        · exact hnn h2
        · exact hnr h2
    · rcases hb with hanp | hanp
      · exact hnr (hanp ▸ han)
      · rcases reparent_reaches_inv hanp with hold2 | ⟨hnode2, _⟩
        · exact hnr (reaches_trans hold2 han)
        · rcases hnode2 with h2 | h2
          · exact hnn h2
          · exact hnr h2

theorem wf_delete {cats : List Cat} {node : Nat} (hwf : WFParents cats) :
    WFParents (deleteCat cats node) := by
  intro c' hc' p hp
  rw [deleteCat] at hc'
  obtain ⟨c, hcf, hfc⟩ := List.mem_map.mp hc'
  have hcmem := List.mem_filter.mp hcf
  by_cases hpar : c.parent = some node
  · rw [← hfc] at hp
    simp [hpar] at hp
  · have hcp : c.parent = some p := by
      rw [← hfc] at hp
      simpa [hpar] using hp
    have hpmem := hwf c hcmem.1 p hcp
    have hpne : p ≠ node := fun hcontra => hpar (hcontra ▸ hcp)
    obtain ⟨d, hd, hdid⟩ := List.mem_map.mp hpmem
    refine List.mem_map.mpr
      ⟨if d.parent == some node then (⟨d.id, none⟩ : Cat) else d, ?_, ?_⟩
    · rw [deleteCat]
      refine List.mem_map.mpr ⟨d, List.mem_filter.mpr ⟨hd, by simp [hdid, hpne]⟩, rfl⟩
    · by_cases h2 : d.parent = some node <;> simp [h2, hdid]

theorem acyclic_delete {cats : List Cat} {node : Nat} (hac : Acyclic cats) :
    Acyclic (deleteCat cats node) := by
  intro a hreach
  exact hac a (reaches_mono (fun x p hp => (parentOf_deleteCat hp).2) hreach)

/-- The tree invariant: referential integrity of parent ids plus
acyclicity. -/
def TreeInv (cats : List Cat) : Prop := WFParents cats ∧ Acyclic cats

theorem treeInv_nil : TreeInv [] := by
  constructor
  · intro c hc p hp
    cases hc
  · intro i h
    cases h with
    | step hp => rw [parentOf_nil] at hp; cases hp
    | trans hp _ => rw [parentOf_nil] at hp; cases hp

theorem treeInv_createCat {cats cats' : List Cat} {i : Nat} {p? : Option Nat}
    (hinv : TreeInv cats) (h : createCat cats i p? = Except.ok cats') :
    TreeInv cats' := by
  obtain ⟨hwf, hac⟩ := hinv
  rw [createCat] at h
  split at h
  · cases h
  · next hdup =>
    split at h
    · next hres =>
      injection h with h2
      subst h2
      have hfresh := not_mem_catIds_of_any_eq_false hdup
      have hp : ∀ q, p? = some q → q ∈ catIds cats := by
        intro q hq
        rw [hq] at hres
        exact mem_catIds_of_any (by simpa using hres)
      exact ⟨wf_create hwf hp, acyclic_create hwf hac hfresh hp⟩
    · cases h

theorem treeInv_reparentCat {cats cats' : List Cat} {node np : Nat}
    (hinv : TreeInv cats) (h : reparentCat cats node np = Except.ok cats') :
    TreeInv cats' := by
  obtain ⟨hwf, hac⟩ := hinv
  rw [reparentCat] at h
  split at h
  · next hres =>
    split at h
    · cases h
    · next hguard =>
      injection h with h2
      subst h2
      have hanynp : cats.any (fun c => c.id == np) = true :=
        ((Bool.and_eq_true _ _).mp hres).2
      have hnp := mem_catIds_of_any hanynp
      simp only [Bool.or_eq_true, not_or] at hguard
      obtain ⟨hg1, hg2⟩ := hguard
      have hnn : np ≠ node := by simpa using hg1
      have hnr : ¬ ParentReaches cats np node := by
        intro hr
        exact hg2 ((isDescendantOf_iff hwf hac).mpr hr)
      exact ⟨wf_reparent hwf hnp, acyclic_reparent hac hnn hnr⟩
  · cases h

theorem treeInv_applyTreeOp {cats : List Cat} (hinv : TreeInv cats) (op : TreeOp) :
    TreeInv (applyTreeOp cats op) := by
  cases op with
  | create i p? =>
    rw [applyTreeOp]
    cases hc : createCat cats i p? with
    | ok cats' => exact treeInv_createCat hinv hc
    | error e => exact hinv
  | reparent n p =>
    rw [applyTreeOp]
    cases hc : reparentCat cats n p with
    | ok cats' => exact treeInv_reparentCat hinv hc
    | error e => exact hinv
  | delete n =>
    rw [applyTreeOp]
    exact ⟨wf_delete hinv.1, acyclic_delete hinv.2⟩

theorem treeInv_foldl (ops : List TreeOp) {cats : List Cat} (hinv : TreeInv cats) :
    TreeInv (ops.foldl applyTreeOp cats) := by
  induction ops generalizing cats with
  | nil => exact hinv
  | cons op rest ih => exact ih (treeInv_applyTreeOp hinv op)

/-- Three-level category chain C -> D -> F of the spec's test scenario,
with ids 0 (C), 1 (D), 2 (F). -/
def catChain : List Cat := [⟨0, none⟩, ⟨1, some 0⟩, ⟨2, some 1⟩]

/-
Claim theorems for the category tree.
-/

/-- C6: an update that sets a category's parent to the category itself or
to one of its descendants fails with CyclicParentError and leaves the
graph unchanged; consequently the parent graph stays acyclic after every
sequence of operations starting from the empty table. -/
theorem c6_cyclic_parent_rejected (cats : List Cat) (node np : Nat)
    (hwf : wfParentsB cats = true) (hac : acyclicB cats = true)
    (hnode : cats.any (fun c => c.id == node) = true)
    (hnp : cats.any (fun c => c.id == np) = true)
    (hbad : np = node ∨ ParentReaches cats np node) :
    reparentCat cats node np = Except.error TreeError.cyclicParent ∧
    applyTreeOp cats (TreeOp.reparent node np) = cats ∧
    ∀ ops : List TreeOp, Acyclic (ops.foldl applyTreeOp []) := by
  have hwf2 := wfParentsB_spec hwf
  have hac2 := acyclicB_spec hwf2 hac
  have hguard : (np == node || isDescendantOf cats node np) = true := by
    rcases hbad with hb | hb
    · simp [hb]
    · simp [(isDescendantOf_iff hwf2 hac2).mpr hb]
  have herr : reparentCat cats node np = Except.error TreeError.cyclicParent := by
    rw [reparentCat]
    simp [hnode, hnp, hguard]
  refine ⟨herr, ?_, ?_⟩
  · rw [applyTreeOp, herr]
  · intro ops
    exact (treeInv_foldl ops treeInv_nil).2

/-- C6 witness: reparenting the root of the three-level chain onto its
grandchild is rejected. -/
theorem c6_witness :
    reparentCat catChain 0 2 = Except.error TreeError.cyclicParent :=
  (c6_cyclic_parent_rejected catChain 0 2 (by decide) (by decide) (by decide) (by decide)
    (Or.inr (ParentReaches.trans rfl (ParentReaches.step rfl)))).1

/-- C7: deleting a category removes exactly its own row; every direct
child's parent reference becomes none while the child row survives, and
every other row (grandchildren included) keeps its parent reference;
concretely, deleting C (id 0) with children D (id 1) and E (id 2) and
grandchild F (id 3, child of D) orphans D and E and leaves F's parent D
intact. -/
theorem c7_orphan_on_delete (cats : List Cat) (node : Nat) :
    (∀ c ∈ cats, c.id ≠ node →
      (⟨c.id, if c.parent = some node then none else c.parent⟩ : Cat)
        ∈ deleteCat cats node) ∧
    (∀ c' ∈ deleteCat cats node, ∃ c ∈ cats, c.id = c'.id ∧ c.id ≠ node ∧
      c'.parent = if c.parent = some node then none else c.parent) ∧
    deleteCat [⟨0, none⟩, ⟨1, some 0⟩, ⟨2, some 0⟩, ⟨3, some 1⟩] 0
      = [⟨1, none⟩, ⟨2, none⟩, ⟨3, some 1⟩] := by
  refine ⟨?_, ?_, by decide⟩
  · intro c hc hcn
    rw [deleteCat]
    refine List.mem_map.mpr ⟨c, List.mem_filter.mpr ⟨hc, by simp [hcn]⟩, ?_⟩
    by_cases hp : c.parent = some node
    · simp [hp]
    · simp [hp]
  · intro c' hc'
    rw [deleteCat] at hc'
    obtain ⟨c, hcf, hfc⟩ := List.mem_map.mp hc'
    have hcmem := List.mem_filter.mp hcf
    have hcn : c.id ≠ node := by simpa using hcmem.2
    refine ⟨c, hcmem.1, ?_, hcn, ?_⟩
    · rw [← hfc]
      by_cases hp : c.parent = some node <;> simp [hp]
    · rw [← hfc]
      by_cases hp : c.parent = some node <;> simp [hp]

/-- C7 witness: the deletion theorem applied at the concrete family,
showing child D (id 1) survives orphaned. -/
theorem c7_witness :
    (⟨1, none⟩ : Cat)
      ∈ deleteCat [⟨0, none⟩, ⟨1, some 0⟩, ⟨2, some 0⟩, ⟨3, some 1⟩] 0 := by
  have h := (c7_orphan_on_delete [⟨0, none⟩, ⟨1, some 0⟩, ⟨2, some 0⟩, ⟨3, some 1⟩] 0).1
    ⟨1, some 0⟩ (by decide) (by decide)
  simpa using h

/-- C8: on a well-formed acyclic table the descendant query returns exactly
the ids transitively reachable from the node via child links, plus the node
itself exactly when include_self is set; on the three-level chain
C -> D -> F it returns {C, D, F} for (C, include_self) and {F} for
(D, not include_self). -/
theorem c8_descendants_reachability (cats : List Cat) (root x : Nat) (b : Bool)
    (hwf : wfParentsB cats = true) (hac : acyclicB cats = true) :
    (x ∈ descendants cats root b ↔
      x ∈ catIds cats ∧ ((b = true ∧ x = root) ∨ ParentReaches cats x root)) ∧
    descendants catChain 0 true = [0, 1, 2] ∧
    descendants catChain 1 false = [2] := by
  have hwf2 := wfParentsB_spec hwf
  have hac2 := acyclicB_spec hwf2 hac
  refine ⟨?_, by decide, by decide⟩
  constructor
  · intro h
    rw [descendants] at h
    obtain ⟨c, hcf, hfc⟩ := List.mem_map.mp h
    have hcmem := List.mem_filter.mp hcf
    refine ⟨List.mem_map.mpr ⟨c, hcmem.1, hfc⟩, ?_⟩
    have hpred := hcmem.2
    rw [Bool.or_eq_true] at hpred
    rcases hpred with hp | hp
    · rw [Bool.and_eq_true] at hp
      left
      refine ⟨hp.1, ?_⟩
      rw [← hfc]
      simpa using hp.2
    · right
      rw [← hfc]
      exact (isDescendantOf_iff hwf2 hac2).mp hp
  · rintro ⟨hmem, hcase⟩
    obtain ⟨c, hc, hcid⟩ := List.mem_map.mp hmem
    rw [descendants]
    refine List.mem_map.mpr ⟨c, List.mem_filter.mpr ⟨hc, ?_⟩, hcid⟩
    rcases hcase with ⟨hb, hxr⟩ | hreach
    · rw [Bool.or_eq_true, Bool.and_eq_true]
      exact Or.inl ⟨hb, by simp [hcid, hxr]⟩
    · rw [Bool.or_eq_true]
      right
      rw [show c.id = x from hcid]
      exact (isDescendantOf_iff hwf2 hac2).mpr hreach

/-- C8 witness: the reachability characterisation applied at the chain,
at node F (id 2) under the root C (id 0). -/
theorem c8_witness :
    2 ∈ descendants catChain 0 true ↔
      2 ∈ catIds catChain ∧ ((true = true ∧ 2 = 0) ∨ ParentReaches catChain 2 0) :=
  (c8_descendants_reachability catChain 0 2 true (by decide) (by decide)).1

/-
Part 3: product slugs.

Product.save (product/models.py lines 93-97) computes the slug only when
the row is being added: slugify of the name followed by the creation
timestamp.  The slug column carries no uniqueness constraint, and
ProductSerializer declares slug read-only, so no update path rewrites it.
-/

structure ProductRec where
  pk : Nat
  name : String
  slug : String
deriving DecidableEq, Repr

/-- Characters kept by slugify (ASCII fragment of the framework's rule):
alphanumerics, underscore, hyphen and space survive the first pass. -/
def slugKeep (c : Char) : Bool :=
  c.isAlphanum || c == '_' || c == '-' || c == ' '

/-- Collapse every run of spaces and hyphens into a single hyphen. -/
def collapseSeps : List Char → List Char
  | [] => []
  | [c] => [if c = ' ' then '-' else c]
  | c :: d :: cs =>
    if (c == ' ' || c == '-') && (d == ' ' || d == '-') then collapseSeps (d :: cs)
    else (if c = ' ' then '-' else c) :: collapseSeps (d :: cs)

/-- Strip leading and trailing hyphens and underscores. -/
def stripEdge (cs : List Char) : List Char :=
  ((cs.dropWhile (fun c => c == '-' || c == '_')).reverse.dropWhile
    (fun c => c == '-' || c == '_')).reverse

/-- The framework's slugify on the ASCII fragment: lowercase, drop the
characters outside the kept set, collapse separator runs to hyphens, strip
edge separators. -/
def slugify (s : String) : String :=
  String.mk (stripEdge (collapseSeps ((s.toList.map Char.toLower).filter slugKeep)))

/-- Product.save: only when the row is being added is the slug computed,
as slugify of the name followed by the current timestamp (a value supplied
by the environment); every other save leaves the slug untouched. -/
def product_save (adding : Bool) (p : ProductRec) (ts : String) : ProductRec :=
  if adding then ⟨p.pk, p.name, slugify (p.name ++ " " ++ ts)⟩ else p

/-- Creating a product through the API: the new row is saved with
adding = true. -/
def createProduct (pk : Nat) (name ts : String) : ProductRec :=
  product_save true ⟨pk, name, ""⟩ ts

/-- ProductSerializer.update: slug is in read_only_fields, so an update
writes the other attributes and saves with adding = false; the slug is
never recomputed. -/
def updateProduct (p : ProductRec) (newName ts : String) : ProductRec :=
  product_save false ⟨p.pk, newName, p.slug⟩ ts

/-- C9 counterexample: two products created with the same name at the same
timestamp receive identical slugs (the code never checks for collisions and
the column has no uniqueness constraint), so the slug is not globally
unique across products. -/
theorem c9_counterexample_slug_collision :
    (createProduct 1 "chair" "1700000000.0").slug
      = (createProduct 2 "chair" "1700000000.0").slug ∧
    (createProduct 1 "chair" "1700000000.0").pk
      ≠ (createProduct 2 "chair" "1700000000.0").pk :=
  ⟨rfl, by decide⟩

/-- C9 (amended): the slug is immutable after creation (no update or
non-adding save changes it) and is determined by slugify of name and
creation timestamp; two creations whose slugified inputs differ receive
distinct slugs, but uniqueness is only as strong as that derivation - equal
name-and-timestamp pairs collide. -/
theorem c9_slug_immutable_amended (p : ProductRec) (nm ts : String)
    (pk1 pk2 : Nat) (n1 t1 n2 t2 : String)
    (hne : slugify (n1 ++ " " ++ t1) ≠ slugify (n2 ++ " " ++ t2)) :
    (updateProduct p nm ts).slug = p.slug ∧
    (product_save false p ts).slug = p.slug ∧
    (createProduct pk1 n1 t1).slug ≠ (createProduct pk2 n2 t2).slug ∧
    (createProduct pk1 n1 t1).slug = slugify (n1 ++ " " ++ t1) :=
  ⟨rfl, rfl, hne, rfl⟩

/-- C9 witness: the amended theorem at two concrete creations with
distinct slugified inputs. -/
theorem c9_witness :
    (createProduct 1 "chair" "1.0").slug ≠ (createProduct 2 "table" "2.0").slug :=
  (c9_slug_immutable_amended ⟨0, "", ""⟩ "" "" 1 2 "chair" "1.0" "table" "2.0"
    (by decide)).2.2.1
